import Mathlib

/-!
Verification of the PULP-DSP strided matrix kernels
(`plp_mat_mult_trans_stride_i32p_xpulpv2`,
`plp_mat_mult_trans_cmplx_stride_i16p_xpulpv2`,
`plp_mat_sub_stride_i16p_xpulpv2`) and of the `plp_dot_prod_i32s`
dispatch glue.

Buffers are modelled as total maps from element offsets to integer
values (`Mem`); machine integer arithmetic is modelled on `Int` with an
explicit two's-complement reduction modulo `2 ^ 32` (resp. `2 ^ 16`).
A kernel invocation takes the output buffer contents as explicit state
and returns the updated contents; the input buffers travel inside the
argument struct and are never written.
-/

/-- Contents of a C buffer: the value stored at each element offset. -/
abbrev Mem : Type := Nat → Int

/-- Two's-complement reduction of an integer into the `int32_t` range. -/
def wrap32 (x : Int) : Int := (x + 2 ^ 31) % 2 ^ 32 - 2 ^ 31

/-- Two's-complement reduction of an integer into the `int16_t` range. -/
def wrap16 (x : Int) : Int := (x + 2 ^ 15) % 2 ^ 16 - 2 ^ 15

/-- C `int32_t` addition (wraps around on overflow). -/
def add32 (x y : Int) : Int := wrap32 (x + y)

/-- C `int32_t` subtraction (wraps around on overflow). -/
def sub32 (x y : Int) : Int := wrap32 (x - y)

/-- C `int32_t` multiplication (wraps around on overflow). -/
def mul32 (x y : Int) : Int := wrap32 (x * y)

/-- Trace of the outer loop `for (m = core_id; m < M; m += nPE)`: the row
indices visited starting from `m`, with explicit iteration fuel.  Fuel `M`
runs the loop to completion whenever `1 ≤ nPE` (`stridedGo_fuel_stable`);
with that much fuel the definition is exactly the C loop. -/
def stridedGo (nPE M : Nat) : Nat → Nat → List Nat
  | 0, _ => []
  | fuel + 1, m => if m < M then m :: stridedGo nPE M fuel (m + nPE) else []

/-- Row set traversed by worker `core_id`: the rows visited by
`for (m = core_id; m < M; m += nPE)`. -/
def stridedRows (core_id nPE M : Nat) : List Nat :=
  stridedGo nPE M M core_id

/-- Fields of `plp_mat_mult_stride_instance_i32` read by
`plp_mat_mult_trans_stride_i32p_xpulpv2`; the output pointer `pDstC` is
represented by passing the output buffer contents as explicit state. -/
structure plp_mat_mult_stride_instance_i32 where
  pSrcA : Mem
  pSrcB : Mem
  M : Nat
  N : Nat
  O : Nat
  strideA : Nat
  strideB : Nat
  strideC : Nat
  nPE : Nat

/-- Fields of `plp_mat_mult_cmplx_stride_instance_i16` read by
`plp_mat_mult_trans_cmplx_stride_i16p_xpulpv2`.  The buffers hold the
primitive (16-bit input, 32-bit output) values at interleaved offsets:
real part at `index * 2`, imaginary part at `index * 2 + 1`. -/
structure plp_mat_mult_cmplx_stride_instance_i16 where
  pSrcA : Mem
  pSrcB : Mem
  M : Nat
  N : Nat
  O : Nat
  strideA : Nat
  strideB : Nat
  strideC : Nat
  nPE : Nat

/-- Fields of `plp_mat_sub_stride_instance_i16` read by
`plp_mat_sub_stride_i16p_xpulpv2`. -/
structure plp_mat_sub_stride_instance_i16 where
  pSrcA : Mem
  pSrcB : Mem
  M : Nat
  N : Nat
  strideA : Nat
  strideB : Nat
  strideY : Nat
  nPE : Nat

/-- Inner loop of `plp_mat_mult_trans_stride_i32p_xpulpv2`:
`for (n = 0; n < N; n++) sum += valA * valB;` where
`valA = pSrcA[m * strideA + n]`, `valB = pSrcB[o * strideB + n]`, all in
`int32_t` arithmetic. -/
def matMultTransSum (a : plp_mat_mult_stride_instance_i32) (m o : Nat) : Int :=
  (List.range a.N).foldl
    (fun sum n =>
      add32 sum (mul32 (a.pSrcA (m * a.strideA + n)) (a.pSrcB (o * a.strideB + n)))) 0

/-- One invocation of `plp_mat_mult_trans_stride_i32p_xpulpv2` by the worker
with identity `core_id`, mapping the output buffer `pDstC` to its new
contents. -/
def plp_mat_mult_trans_stride_i32p_xpulpv2 (core_id : Nat)
    (a : plp_mat_mult_stride_instance_i32) (pDstC : Mem) : Mem :=
  (stridedRows core_id a.nPE a.M).foldl
    (fun mem m =>
      (List.range a.O).foldl
        (fun mem o => Function.update mem (m * a.strideC + o) (matMultTransSum a m o))
        mem)
    pDstC

/-- Body of the inner loop of `plp_mat_mult_trans_cmplx_stride_i16p_xpulpv2`:
one step of the paired accumulation
`sum_re += a_re * b_re - a_im * b_im; sum_im += a_re * b_im + a_im * b_re;`
in `int32_t` arithmetic. -/
def cmplxStep (a : plp_mat_mult_cmplx_stride_instance_i16) (m o : Nat)
    (s : Int × Int) (n : Nat) : Int × Int :=
  let a_re := a.pSrcA ((m * a.strideA + n) * 2)
  let a_im := a.pSrcA ((m * a.strideA + n) * 2 + 1)
  let b_re := a.pSrcB ((o * a.strideB + n) * 2)
  let b_im := a.pSrcB ((o * a.strideB + n) * 2 + 1)
  (add32 s.1 (sub32 (mul32 a_re b_re) (mul32 a_im b_im)),
   add32 s.2 (add32 (mul32 a_re b_im) (mul32 a_im b_re)))

/-- Inner loop of `plp_mat_mult_trans_cmplx_stride_i16p_xpulpv2`: the final
`(sum_re, sum_im)` pair for output position `(m, o)`. -/
def cmplxAccum (a : plp_mat_mult_cmplx_stride_instance_i16) (m o : Nat) : Int × Int :=
  (List.range a.N).foldl (cmplxStep a m o) (0, 0)

/-- One invocation of `plp_mat_mult_trans_cmplx_stride_i16p_xpulpv2` by the
worker with identity `core_id`: for each owned row `m` and each `o`, stores
`sum_re` at `(m * strideC + o) * 2` and `sum_im` at `(m * strideC + o) * 2 + 1`. -/
def plp_mat_mult_trans_cmplx_stride_i16p_xpulpv2 (core_id : Nat)
    (a : plp_mat_mult_cmplx_stride_instance_i16) (pDstC : Mem) : Mem :=
  (stridedRows core_id a.nPE a.M).foldl
    (fun mem m =>
      (List.range a.O).foldl
        (fun mem o =>
          Function.update
            (Function.update mem ((m * a.strideC + o) * 2) (cmplxAccum a m o).1)
            ((m * a.strideC + o) * 2 + 1) (cmplxAccum a m o).2)
        mem)
    pDstC

/-- One invocation of `plp_mat_sub_stride_i16p_xpulpv2` by the worker with
identity `core_id`:
`pDst[m * strideY + n] = pSrcA[m * strideA + n] - pSrcB[m * strideB + n];`,
the `int` difference being converted back to `int16_t` on store. -/
def plp_mat_sub_stride_i16p_xpulpv2 (core_id : Nat)
    (a : plp_mat_sub_stride_instance_i16) (pDst : Mem) : Mem :=
  (stridedRows core_id a.nPE a.M).foldl
    (fun mem m =>
      (List.range a.N).foldl
        (fun mem n =>
          Function.update mem (m * a.strideY + n)
            (wrap16 (a.pSrcA (m * a.strideA + n) - a.pSrcB (m * a.strideB + n))))
        mem)
    pDst

/-- Combined effect of the scheduler forking
`plp_mat_mult_trans_stride_i32p_xpulpv2` once per `core_id` in `[0, nPE)`:
the workers' writes are pairwise disjoint, so their sequential composition
models the combined output buffer after the join. -/
def parRunMultI32 (a : plp_mat_mult_stride_instance_i32) (pDstC : Mem) : Mem :=
  (List.range a.nPE).foldl
    (fun mem cid => plp_mat_mult_trans_stride_i32p_xpulpv2 cid a mem) pDstC

/-- Combined effect of the scheduler forking
`plp_mat_mult_trans_cmplx_stride_i16p_xpulpv2` once per `core_id` in
`[0, nPE)`. -/
def parRunCmplx (a : plp_mat_mult_cmplx_stride_instance_i16) (pDstC : Mem) : Mem :=
  (List.range a.nPE).foldl
    (fun mem cid => plp_mat_mult_trans_cmplx_stride_i16p_xpulpv2 cid a mem) pDstC

/-- Combined effect of the scheduler forking `plp_mat_sub_stride_i16p_xpulpv2`
once per `core_id` in `[0, nPE)`. -/
def parRunSub (a : plp_mat_sub_stride_instance_i16) (pDst : Mem) : Mem :=
  (List.range a.nPE).foldl
    (fun mem cid => plp_mat_sub_stride_i16p_xpulpv2 cid a mem) pDst

/-- Outcome of kernel selection in the `plp_dot_prod_i32s` glue code.  The
`contractViolation` outcome stands for the fail-fast/abort behaviour the
spec describes for an unrecognized context; the source code has no branch
producing it. -/
inductive DotProdI32Kernel where
  | rv32im
  | xpulpv2
  | contractViolation
deriving DecidableEq

/-- Kernel selection performed by `plp_dot_prod_i32s`:
`if (rt_cluster_id() == ARCHI_FC_CID) plp_dot_prod_i32s_rv32im(...) else
plp_dot_prod_i32s_xpulpv2(...)`.  The calling context's cluster identity
and the runtime constant `ARCHI_FC_CID` are passed explicitly; the input
buffers and length are received (and forwarded) but never inspected. -/
def plp_dot_prod_i32s_select (cluster_id ARCHI_FC_CID : Nat)
    (pSrcA pSrcB : Mem) (blockSize : Nat) : DotProdI32Kernel :=
  if cluster_id = ARCHI_FC_CID then DotProdI32Kernel.rv32im else DotProdI32Kernel.xpulpv2

/-- Write list abstraction: apply a list of `(address, value)` stores to a
buffer, in order. -/
def applyWrites (l : List (Nat × Int)) (mem : Mem) : Mem :=
  l.foldl (fun mem pv => Function.update mem pv.1 pv.2) mem

/-- Stores issued for one owned row `m` by
`plp_mat_mult_trans_stride_i32p_xpulpv2`. -/
def rowWritesMultI32 (a : plp_mat_mult_stride_instance_i32) (m : Nat) :
    List (Nat × Int) :=
  (List.range a.O).map fun o => (m * a.strideC + o, matMultTransSum a m o)

/-- Stores issued for one owned row `m` by
`plp_mat_mult_trans_cmplx_stride_i16p_xpulpv2`. -/
def rowWritesCmplx (a : plp_mat_mult_cmplx_stride_instance_i16) (m : Nat) :
    List (Nat × Int) :=
  (List.range a.O).flatMap fun o =>
    [((m * a.strideC + o) * 2, (cmplxAccum a m o).1),
     ((m * a.strideC + o) * 2 + 1, (cmplxAccum a m o).2)]

/-- Stores issued for one owned row `m` by `plp_mat_sub_stride_i16p_xpulpv2`. -/
def rowWritesSub (a : plp_mat_sub_stride_instance_i16) (m : Nat) :
    List (Nat × Int) :=
  (List.range a.N).map fun n =>
    (m * a.strideY + n, wrap16 (a.pSrcA (m * a.strideA + n) - a.pSrcB (m * a.strideB + n)))

/-- Generic single-worker run: apply the stores of every owned row. -/
def coreRun (rw : Nat → List (Nat × Int)) (nPE M cid : Nat) (mem : Mem) : Mem :=
  applyWrites ((stridedRows cid nPE M).flatMap rw) mem

/-- Generic parallel run: one `coreRun` per `core_id` in `[0, nPE)`. -/
def parRun (rw : Nat → List (Nat × Int)) (nPE M : Nat) (mem : Mem) : Mem :=
  (List.range nPE).foldl (fun mem cid => coreRun rw nPE M cid mem) mem

/-- Concatenation of all workers' row sets, in core order. -/
def allRows (nPE M : Nat) : List Nat :=
  (List.range nPE).flatMap fun cid => stridedRows cid nPE M

/-- Reduction modulo `2 ^ 32` fixes zero. -/
theorem wrap32_zero : wrap32 0 = 0 := by decide

/-- Any reduced value lies in the `int32_t` range. -/
theorem wrap32_lb (x : Int) : -2 ^ 31 ≤ wrap32 x := by unfold wrap32; omega

/-- Any reduced value lies in the `int32_t` range. -/
theorem wrap32_ub (x : Int) : wrap32 x < 2 ^ 31 := by unfold wrap32; omega

/-- Reducing the sum of two reduced values equals reducing the raw sum. -/
theorem wrap32_wrap_add (a b : Int) : wrap32 (wrap32 a + wrap32 b) = wrap32 (a + b) := by
  unfold wrap32; omega

/-- Reducing the difference of two reduced values equals reducing the raw
difference. -/
theorem wrap32_wrap_sub (a b : Int) : wrap32 (wrap32 a - wrap32 b) = wrap32 (a - b) := by
  unfold wrap32; omega

/-- Elements produced by the strided loop are below the row bound `M`. -/
theorem stridedGo_lt (nPE M : Nat) :
    ∀ fuel m r, r ∈ stridedGo nPE M fuel m → r < M := by
  intro fuel
  induction fuel with
  | zero => intro m r h; simp [stridedGo] at h
  | succ k ih =>
      intro m r h
      by_cases hm : m < M
      · simp [stridedGo, hm] at h
        rcases h with h | h
        · omega
        · exact ih _ _ h
      · simp [stridedGo, hm] at h

/-- Elements produced by the strided loop are at least the start index. -/
theorem stridedGo_ge (nPE M : Nat) :
    ∀ fuel m r, r ∈ stridedGo nPE M fuel m → m ≤ r := by
  intro fuel
  induction fuel with
  | zero => intro m r h; simp [stridedGo] at h
  | succ k ih =>
      intro m r h
      by_cases hm : m < M
      · simp [stridedGo, hm] at h
        rcases h with h | h
        · omega
        · have := ih _ _ h; omega
      · simp [stridedGo, hm] at h

/-- Membership characterization of the strided loop trace, given enough
fuel: exactly the indices `m + k * nPE` below `M`. -/
theorem mem_stridedGo (nPE M : Nat) (hn : 1 ≤ nPE) :
    ∀ fuel m, M ≤ m + fuel * nPE →
      ∀ r, (r ∈ stridedGo nPE M fuel m ↔ ∃ k, r = m + k * nPE ∧ r < M) := by
  intro fuel
  induction fuel with
  | zero =>
      intro m hf r
      simp only [stridedGo, List.not_mem_nil, false_iff]
      rintro ⟨k, rfl, hr⟩
      omega
  | succ t ih =>
      intro m hf r
      have hexp : (t + 1) * nPE = nPE + t * nPE := by ring
      by_cases hm : m < M
      · simp only [stridedGo, hm, if_true, List.mem_cons]
        have ihr := ih (m + nPE) (by omega) r
        rw [ihr]
        constructor
        · rintro (rfl | ⟨k, rfl, hr⟩)
          · exact ⟨0, by omega, hm⟩
          · exact ⟨k + 1, by ring, hr⟩
        · rintro ⟨k, rfl, hr⟩
          cases k with
          | zero => left; omega
          | succ k' => right; exact ⟨k', by ring, hr⟩
      · simp only [stridedGo, hm, if_false, List.not_mem_nil, false_iff]
        rintro ⟨k, rfl, hr⟩
        have : m ≤ m + k * nPE := Nat.le_add_right _ _
        omega

/-- Membership characterization of a worker's row set. -/
theorem mem_stridedRows (cid nPE M : Nat) (hn : 1 ≤ nPE) (r : Nat) :
    r ∈ stridedRows cid nPE M ↔ ∃ k, r = cid + k * nPE ∧ r < M := by
  have hfuel : M ≤ cid + M * nPE := by
    have : M * 1 ≤ M * nPE := Nat.mul_le_mul_left M hn
    omega
  exact mem_stridedGo nPE M hn M cid hfuel r

/-- The strided loop trace is strictly increasing. -/
theorem stridedGo_pairwise (nPE M : Nat) (hn : 1 ≤ nPE) :
    ∀ fuel m, (stridedGo nPE M fuel m).Pairwise (· < ·) := by
  intro fuel
  induction fuel with
  | zero => intro m; simp [stridedGo]
  | succ t ih =>
      intro m
      by_cases hm : m < M
      · simp only [stridedGo, hm, if_true, List.pairwise_cons]
        refine ⟨fun r hr => ?_, ih (m + nPE)⟩
        have := stridedGo_ge nPE M t (m + nPE) r hr
        omega
      · simp [stridedGo, hm]

/-- A worker's row set has no duplicates. -/
theorem stridedRows_nodup (cid nPE M : Nat) (hn : 1 ≤ nPE) :
    (stridedRows cid nPE M).Nodup :=
  (stridedGo_pairwise nPE M hn M cid).imp Nat.ne_of_lt

/-- A worker whose identity is at least `M` owns no rows at all. -/
theorem stridedRows_empty (cid nPE M : Nat) (h : M ≤ cid) :
    stridedRows cid nPE M = [] := by
  cases M with
  | zero => rfl
  | succ k => simp [stridedRows, stridedGo, Nat.not_lt.mpr h]

/-- One extra unit of fuel changes nothing once the fuel bound covers the
remaining iteration count. -/
theorem stridedGo_fuel_succ (nPE M : Nat) (hn : 1 ≤ nPE) :
    ∀ fuel m, M ≤ m + fuel * nPE →
      stridedGo nPE M (fuel + 1) m = stridedGo nPE M fuel m := by
  intro fuel
  induction fuel with
  | zero =>
      intro m hf
      simp only [stridedGo]
      have : ¬ m < M := by omega
      simp [this]
  | succ t ih =>
      intro m hf
      have hexp : (t + 1) * nPE = nPE + t * nPE := by ring
      by_cases hm : m < M
      · have l1 : stridedGo nPE M (t + 1 + 1) m
            = if m < M then m :: stridedGo nPE M (t + 1) (m + nPE) else [] := rfl
        have l2 : stridedGo nPE M (t + 1) m
            = if m < M then m :: stridedGo nPE M t (m + nPE) else [] := rfl
        have hrec := ih (m + nPE) (by omega)
        rw [l1, l2, if_pos hm, if_pos hm, hrec]
      · have l1 : stridedGo nPE M (t + 1 + 1) m
            = if m < M then m :: stridedGo nPE M (t + 1) (m + nPE) else [] := rfl
        have l2 : stridedGo nPE M (t + 1) m
            = if m < M then m :: stridedGo nPE M t (m + nPE) else [] := rfl
        rw [l1, l2, if_neg hm, if_neg hm]

/-- Any amount of extra fuel changes nothing once the fuel bound covers the
remaining iteration count. -/
theorem stridedGo_fuel_add (nPE M : Nat) (hn : 1 ≤ nPE) (fuel m : Nat)
    (hf : M ≤ m + fuel * nPE) :
    ∀ k, stridedGo nPE M (fuel + k) m = stridedGo nPE M fuel m := by
  intro k
  induction k with
  | zero => rfl
  | succ j ih =>
      have hf' : M ≤ m + (fuel + j) * nPE := by
        have : fuel * nPE ≤ (fuel + j) * nPE := Nat.mul_le_mul_right nPE (Nat.le_add_right _ _)
        omega
      calc stridedGo nPE M (fuel + (j + 1)) m = stridedGo nPE M (fuel + j + 1) m := by ring_nf
        _ = stridedGo nPE M (fuel + j) m := stridedGo_fuel_succ nPE M hn (fuel + j) m hf'
        _ = stridedGo nPE M fuel m := ih

/-- The loop terminates: with fuel at least `M` the trace no longer depends
on the fuel, i.e. fuel `M` already runs the loop to completion. -/
theorem stridedGo_fuel_stable (cid nPE M fuel : Nat) (hn : 1 ≤ nPE) (hf : M ≤ fuel) :
    stridedGo nPE M fuel cid = stridedRows cid nPE M := by
  have hbound : M ≤ cid + M * nPE := by
    have : M * 1 ≤ M * nPE := Nat.mul_le_mul_left M hn
    omega
  obtain ⟨k, rfl⟩ := Nat.exists_eq_add_of_le hf
  exact stridedGo_fuel_add nPE M hn M cid hbound k

/-- Successive visited rows differ by exactly `nPE`. -/
theorem stridedGo_chain (nPE M : Nat) :
    ∀ fuel m, (stridedGo nPE M fuel m).Chain' (fun x y => y = x + nPE) := by
  intro fuel
  induction fuel with
  | zero => intro m; simp [stridedGo]
  | succ t ih =>
      intro m
      by_cases hm : m < M
      · simp only [stridedGo, hm, if_true]
        refine List.chain'_cons'.mpr ⟨fun y hy => ?_, ih (m + nPE)⟩
        cases t with
        | zero => simp [stridedGo] at hy
        | succ u =>
            by_cases hm' : m + nPE < M
            · simp [stridedGo, hm'] at hy
              omega
            · simp [stridedGo, hm'] at hy
      · simp [stridedGo, hm]

/-- A row can belong to at most one worker in `[0, nPE)`: its residue
determines the worker. -/
theorem stridedRows_owner_eq (cid nPE M : Nat) (hn : 1 ≤ nPE) (hcid : cid < nPE)
    (r : Nat) (hr : r ∈ stridedRows cid nPE M) : cid = r % nPE := by
  rw [mem_stridedRows cid nPE M hn r] at hr
  obtain ⟨k, rfl, _⟩ := hr
  rw [Nat.add_mul_mod_self_right, Nat.mod_eq_of_lt hcid]

/-- Every row below `M` belongs to the worker with its residue class. -/
theorem stridedRows_owner_mem (nPE M : Nat) (hn : 1 ≤ nPE) (r : Nat) (hr : r < M) :
    r ∈ stridedRows (r % nPE) nPE M := by
  rw [mem_stridedRows (r % nPE) nPE M hn r]
  exact ⟨r / nPE, (Nat.mod_add_div' r nPE).symm, hr⟩

/-- Concatenating all workers' row sets yields no duplicates. -/
theorem allRows_nodup (nPE M : Nat) (hn : 1 ≤ nPE) : (allRows nPE M).Nodup := by
  refine List.nodup_flatMap.mpr ⟨fun cid _ => stridedRows_nodup cid nPE M hn, ?_⟩
  have hpw := List.pairwise_lt_range nPE
  refine List.Pairwise.imp_of_mem ?_ hpw
  intro c c' hc hc' hlt
  intro r hrc hrc'
  have h1 := stridedRows_owner_eq c nPE M hn (List.mem_range.mp hc) r hrc
  have h2 := stridedRows_owner_eq c' nPE M hn (List.mem_range.mp hc') r hrc'
  omega

/-- A row appears in some worker's set iff it is below `M`. -/
theorem mem_allRows (nPE M : Nat) (hn : 1 ≤ nPE) (r : Nat) :
    r ∈ allRows nPE M ↔ r < M := by
  constructor
  · intro h
    obtain ⟨cid, _, hr⟩ := List.mem_flatMap.mp h
    exact stridedGo_lt nPE M M cid r hr
  · intro h
    refine List.mem_flatMap.mpr ⟨r % nPE, List.mem_range.mpr ?_, stridedRows_owner_mem nPE M hn r h⟩
    exact Nat.mod_lt r (by omega)

/-- The union of the workers' row sets is a permutation of `[0, M)`. -/
theorem allRows_perm_range (nPE M : Nat) (hn : 1 ≤ nPE) :
    List.Perm (allRows nPE M) (List.range M) := by
  refine (List.perm_ext_iff_of_nodup (allRows_nodup nPE M hn) (List.nodup_range M)).mpr ?_
  intro r
  rw [mem_allRows nPE M hn r, List.mem_range]

/-- Applying concatenated write lists composes. -/
theorem applyWrites_append (l l' : List (Nat × Int)) (mem : Mem) :
    applyWrites (l ++ l') mem = applyWrites l' (applyWrites l mem) := by
  simp [applyWrites, List.foldl_append]

/-- Frame property of a write list: an address it never writes keeps its
previous value. -/
theorem applyWrites_frame (l : List (Nat × Int)) (addr : Nat)
    (h : addr ∉ l.map Prod.fst) : ∀ mem : Mem, applyWrites l mem addr = mem addr := by
  induction l with
  | nil => intro mem; rfl
  | cons p rest ih =>
      intro mem
      simp only [List.map_cons, List.mem_cons, not_or] at h
      have step : applyWrites (p :: rest) mem
          = applyWrites rest (Function.update mem p.1 p.2) := rfl
      rw [step, ih h.2, Function.update_noteq h.1]

/-- Lookup property of a write list without duplicate addresses: an address
that appears gets the value recorded for it. -/
theorem applyWrites_getValue (l : List (Nat × Int)) (addr : Nat) (v : Int)
    (hnd : (l.map Prod.fst).Nodup) (hm : (addr, v) ∈ l) (mem : Mem) :
    applyWrites l mem addr = v := by
  induction l generalizing mem with
  | nil => simp at hm
  | cons p rest ih =>
      simp only [List.map_cons, List.nodup_cons] at hnd
      have step : applyWrites (p :: rest) mem
          = applyWrites rest (Function.update mem p.1 p.2) := rfl
      rcases List.mem_cons.mp hm with heq | hmem
      · subst heq
        rw [step, applyWrites_frame rest addr hnd.1, Function.update_same]
      · rw [step]
        exact ih hnd.2 hmem _

/-- If every write in the list stores the same value `v`, every written
address ends up holding `v`, duplicates or not. -/
theorem applyWrites_getConst (l : List (Nat × Int)) (v : Int)
    (hall : ∀ pv ∈ l, pv.2 = v) (addr : Nat) (hm : addr ∈ l.map Prod.fst) (mem : Mem) :
    applyWrites l mem addr = v := by
  induction l generalizing mem with
  | nil => simp at hm
  | cons p rest ih =>
      have step : applyWrites (p :: rest) mem
          = applyWrites rest (Function.update mem p.1 p.2) := rfl
      by_cases hrest : addr ∈ rest.map Prod.fst
      · rw [step]
        exact ih (fun pv h => hall pv (List.mem_cons_of_mem p h)) hrest _
      · simp only [List.map_cons, List.mem_cons] at hm
        rcases hm with heq | hmem
        · subst heq
          rw [step, applyWrites_frame rest p.1 hrest, Function.update_same]
          exact hall p (List.mem_cons_self p rest)
        · exact absurd hmem hrest

/-- Write lists without duplicate addresses can be applied in any order. -/
theorem applyWrites_perm (l l' : List (Nat × Int))
    (hnd : (l.map Prod.fst).Nodup) (p : List.Perm l l') (mem : Mem) :
    applyWrites l mem = applyWrites l' mem := by
  refine p.foldl_eq' ?_ mem
  intro x hx y hy z
  by_cases hxy : x.1 = y.1
  · have : x = y := List.inj_on_of_nodup_map hnd hx hy hxy
    subst this
    rfl
  · exact Function.update_comm hxy x.2 y.2 z

/-- A fold of per-element updates is the application of the corresponding
write list. -/
theorem foldl_update_eq_applyWrites {α : Type} (key : α → Nat) (val : α → Int) :
    ∀ (l : List α) (mem : Mem),
      l.foldl (fun mem x => Function.update mem (key x) (val x)) mem
        = applyWrites (l.map fun x => (key x, val x)) mem := by
  intro l mem
  simp only [applyWrites, List.foldl_map]

/-- A fold whose step applies one row's write list is the application of the
concatenated write list. -/
theorem foldl_applyWrites_flatMap (rw : Nat → List (Nat × Int)) (inner : Mem → Nat → Mem)
    (hin : ∀ mem m, inner mem m = applyWrites (rw m) mem) :
    ∀ (rows : List Nat) (mem : Mem),
      rows.foldl inner mem = applyWrites (rows.flatMap rw) mem := by
  intro rows
  induction rows with
  | nil => intro mem; rfl
  | cons m rows ih =>
      intro mem
      rw [List.flatMap_cons, applyWrites_append, List.foldl_cons, hin, ih]

/-- The i32 multiply-transpose kernel is the application of its row write
lists over the worker's row set. -/
theorem kernelMultI32_eq_coreRun (cid : Nat) (a : plp_mat_mult_stride_instance_i32)
    (mem : Mem) :
    plp_mat_mult_trans_stride_i32p_xpulpv2 cid a mem
      = coreRun (rowWritesMultI32 a) a.nPE a.M cid mem := by
  refine foldl_applyWrites_flatMap (rowWritesMultI32 a) _ ?_ (stridedRows cid a.nPE a.M) mem
  intro mem m
  exact foldl_update_eq_applyWrites (fun o => m * a.strideC + o) (fun o => matMultTransSum a m o)
    (List.range a.O) mem

/-- The complex multiply-transpose kernel is the application of its row
write lists over the worker's row set. -/
theorem kernelCmplx_eq_coreRun (cid : Nat) (a : plp_mat_mult_cmplx_stride_instance_i16)
    (mem : Mem) :
    plp_mat_mult_trans_cmplx_stride_i16p_xpulpv2 cid a mem
      = coreRun (rowWritesCmplx a) a.nPE a.M cid mem := by
  refine foldl_applyWrites_flatMap (rowWritesCmplx a) _ ?_ (stridedRows cid a.nPE a.M) mem
  intro mem m
  refine foldl_applyWrites_flatMap
    (fun o => [((m * a.strideC + o) * 2, (cmplxAccum a m o).1),
               ((m * a.strideC + o) * 2 + 1, (cmplxAccum a m o).2)]) _ ?_ (List.range a.O) mem
  intro mem o
  rfl

/-- The subtraction kernel is the application of its row write lists over
the worker's row set. -/
theorem kernelSub_eq_coreRun (cid : Nat) (a : plp_mat_sub_stride_instance_i16)
    (mem : Mem) :
    plp_mat_sub_stride_i16p_xpulpv2 cid a mem
      = coreRun (rowWritesSub a) a.nPE a.M cid mem := by
  refine foldl_applyWrites_flatMap (rowWritesSub a) _ ?_ (stridedRows cid a.nPE a.M) mem
  intro mem m
  exact foldl_update_eq_applyWrites (fun n => m * a.strideY + n)
    (fun n => wrap16 (a.pSrcA (m * a.strideA + n) - a.pSrcB (m * a.strideB + n)))
    (List.range a.N) mem

/-- The parallel i32 multiply-transpose run matches the generic parallel
run over its row write lists. -/
theorem parRunMultI32_eq_parRun (a : plp_mat_mult_stride_instance_i32) (mem : Mem) :
    parRunMultI32 a mem = parRun (rowWritesMultI32 a) a.nPE a.M mem := by
  unfold parRunMultI32 parRun
  refine List.foldl_ext _ _ mem ?_
  intro mem' cid _
  exact kernelMultI32_eq_coreRun cid a mem'

/-- The parallel complex multiply-transpose run matches the generic
parallel run over its row write lists. -/
theorem parRunCmplx_eq_parRun (a : plp_mat_mult_cmplx_stride_instance_i16) (mem : Mem) :
    parRunCmplx a mem = parRun (rowWritesCmplx a) a.nPE a.M mem := by
  unfold parRunCmplx parRun
  refine List.foldl_ext _ _ mem ?_
  intro mem' cid _
  exact kernelCmplx_eq_coreRun cid a mem'

/-- The parallel subtraction run matches the generic parallel run over its
row write lists. -/
theorem parRunSub_eq_parRun (a : plp_mat_sub_stride_instance_i16) (mem : Mem) :
    parRunSub a mem = parRun (rowWritesSub a) a.nPE a.M mem := by
  unfold parRunSub parRun
  refine List.foldl_ext _ _ mem ?_
  intro mem' cid _
  exact kernelSub_eq_coreRun cid a mem'

/-- A generic parallel run applies the concatenation of all workers' write
lists. -/
theorem parRun_eq_applyWrites (rw : Nat → List (Nat × Int)) (nPE M : Nat) (mem : Mem) :
    parRun rw nPE M mem = applyWrites ((allRows nPE M).flatMap rw) mem := by
  unfold parRun allRows
  rw [foldl_applyWrites_flatMap (fun cid => (stridedRows cid nPE M).flatMap rw)
    (fun mem cid => coreRun rw nPE M cid mem) (fun _ _ => rfl) (List.range nPE) mem]
  rw [List.flatMap_assoc]

/-- Canonical form of a generic parallel run: when the write addresses for
distinct rows in `[0, M)` never collide, running any number `nPE ≥ 1` of
workers applies exactly the row write lists of rows `0, 1, ..., M - 1`. -/
theorem parRun_canonical (rw : Nat → List (Nat × Int)) (nPE M : Nat) (hn : 1 ≤ nPE)
    (hnd : (((List.range M).flatMap rw).map Prod.fst).Nodup) (mem : Mem) :
    parRun rw nPE M mem = applyWrites ((List.range M).flatMap rw) mem := by
  have hperm : List.Perm (allRows nPE M) (List.range M) := allRows_perm_range nPE M hn
  have hpw : List.Perm ((allRows nPE M).flatMap rw) ((List.range M).flatMap rw) :=
    hperm.flatMap_right rw
  have hnd' : (((allRows nPE M).flatMap rw).map Prod.fst).Nodup :=
    ((hpw.map Prod.fst).nodup_iff).mpr hnd
  rw [parRun_eq_applyWrites rw nPE M mem]
  exact applyWrites_perm _ _ hnd' hpw mem

/-- With a stride at least the row length, the flat offset determines the
row and the column. -/
theorem strideAddr_inj (sC O : Nat) (hsc : O ≤ sC) {m o m' o' : Nat}
    (ho : o < O) (ho' : o' < O) (h : m * sC + o = m' * sC + o') : m = m' ∧ o = o' := by
  have hsc0 : 0 < sC := by omega
  have hdiv : ∀ mm oo : Nat, oo < sC → (mm * sC + oo) / sC = mm := by
    intro mm oo hoo
    rw [Nat.add_comm, Nat.mul_comm, Nat.add_mul_div_left _ _ hsc0, Nat.div_eq_of_lt hoo,
      Nat.zero_add]
  have hm : m = m' := by
    have h1 := hdiv m o (lt_of_lt_of_le ho hsc)
    have h2 := hdiv m' o' (lt_of_lt_of_le ho' hsc)
    rw [← h1, ← h2, h]
  refine ⟨hm, ?_⟩
  subst hm
  omega

/-- With a stride at least the row length, the interleaved complex offset
determines the row, the column and the real/imaginary slot. -/
theorem cmplxAddr_inj (sC O : Nat) (hsc : O ≤ sC) {m o m' o' i j : Nat}
    (ho : o < O) (ho' : o' < O) (hi : i < 2) (hj : j < 2)
    (h : (m * sC + o) * 2 + i = (m' * sC + o') * 2 + j) :
    m = m' ∧ o = o' ∧ i = j := by
  have hij : i = j ∧ m * sC + o = m' * sC + o' := by omega
  obtain ⟨hm, hoeq⟩ := strideAddr_inj sC O hsc ho ho' hij.2
  exact ⟨hm, hoeq, hij.1⟩

/-- Write addresses of the i32 multiply-transpose kernel over all rows in
`[0, M)` are pairwise distinct whenever `O ≤ strideC`. -/
theorem nodupFst_multI32 (a : plp_mat_mult_stride_instance_i32) (hv : a.O ≤ a.strideC) :
    (((List.range a.M).flatMap (rowWritesMultI32 a)).map Prod.fst).Nodup := by
  rw [List.map_flatMap]
  refine List.nodup_flatMap.mpr ⟨?_, ?_⟩
  · intro m _
    simp only [rowWritesMultI32, List.map_map]
    refine (List.nodup_range a.O).map_on ?_
    intro o ho o' ho' h
    simp only [Function.comp_apply] at h
    exact (strideAddr_inj a.strideC a.O hv (List.mem_range.mp ho) (List.mem_range.mp ho')
      h).2
  · refine List.Pairwise.imp_of_mem ?_ (List.pairwise_lt_range a.M)
    intro m m' hm hm' hlt
    intro addr ha ha'
    simp only [rowWritesMultI32, List.map_map, List.mem_map, Function.comp_apply] at ha ha'
    obtain ⟨o, ho, rfl⟩ := ha
    obtain ⟨o', ho', heq⟩ := ha'
    have := (strideAddr_inj a.strideC a.O hv (List.mem_range.mp ho')
      (List.mem_range.mp ho) heq).1
    omega

/-- Write addresses of the complex multiply-transpose kernel over all rows
in `[0, M)` are pairwise distinct whenever `O ≤ strideC`. -/
theorem nodupFst_cmplx (a : plp_mat_mult_cmplx_stride_instance_i16) (hv : a.O ≤ a.strideC) :
    (((List.range a.M).flatMap (rowWritesCmplx a)).map Prod.fst).Nodup := by
  rw [List.map_flatMap]
  refine List.nodup_flatMap.mpr ⟨?_, ?_⟩
  · intro m _
    simp only [rowWritesCmplx, List.map_flatMap]
    refine List.nodup_flatMap.mpr ⟨?_, ?_⟩
    · intro o _
      simp only [List.map_cons, List.map_nil]
      simp
    · refine List.Pairwise.imp_of_mem ?_ (List.pairwise_lt_range a.O)
      intro o o' ho ho' hlt
      intro addr ha ha'
      simp only [List.map_cons, List.map_nil, List.mem_cons, List.mem_singleton,
        List.not_mem_nil, or_false] at ha ha'
      rcases ha with rfl | rfl <;> rcases ha' with h | h <;> omega
  · refine List.Pairwise.imp_of_mem ?_ (List.pairwise_lt_range a.M)
    intro m m' hm hm' hlt
    intro addr ha ha'
    simp only [rowWritesCmplx, List.map_flatMap, List.mem_flatMap, List.map_cons,
      List.map_nil, List.mem_cons, List.mem_singleton, List.not_mem_nil, or_false] at ha ha'
    obtain ⟨o, ho, hcase⟩ := ha
    obtain ⟨o', ho', hcase'⟩ := ha'
    have hoO := List.mem_range.mp ho
    have hoO' := List.mem_range.mp ho'
    rcases hcase with rfl | rfl <;> rcases hcase' with h | h
    · have hc : m * a.strideC + o = m' * a.strideC + o' := by omega
      have := (strideAddr_inj a.strideC a.O hv hoO hoO' hc).1
      omega
    · omega
    · omega
    · have hc : m * a.strideC + o = m' * a.strideC + o' := by omega
      have := (strideAddr_inj a.strideC a.O hv hoO hoO' hc).1
      omega

/-- Write addresses of the subtraction kernel over all rows in `[0, M)` are
pairwise distinct whenever `N ≤ strideY`. -/
theorem nodupFst_sub (a : plp_mat_sub_stride_instance_i16) (hv : a.N ≤ a.strideY) :
    (((List.range a.M).flatMap (rowWritesSub a)).map Prod.fst).Nodup := by
  rw [List.map_flatMap]
  refine List.nodup_flatMap.mpr ⟨?_, ?_⟩
  · intro m _
    simp only [rowWritesSub, List.map_map]
    refine (List.nodup_range a.N).map_on ?_
    intro n hn n' hn' h
    simp only [Function.comp_apply] at h
    exact (strideAddr_inj a.strideY a.N hv (List.mem_range.mp hn) (List.mem_range.mp hn')
      h).2
  · refine List.Pairwise.imp_of_mem ?_ (List.pairwise_lt_range a.M)
    intro m m' hm hm' hlt
    intro addr ha ha'
    simp only [rowWritesSub, List.map_map, List.mem_map, Function.comp_apply] at ha ha'
    obtain ⟨n, hn, rfl⟩ := ha
    obtain ⟨n', hn', heq⟩ := ha'
    have := (strideAddr_inj a.strideY a.N hv (List.mem_range.mp hn')
      (List.mem_range.mp hn) heq).1
    omega

/-- Accumulating already-reduced step values with wrapping `int32_t`
addition computes the reduction of the mathematical sum. -/
theorem foldl_add32_sum (t raw : Nat → Int) (ht : ∀ n, t n = wrap32 (raw n)) :
    ∀ (l : List Nat) (s : Int),
      l.foldl (fun sum n => add32 sum (t n)) (wrap32 s) = wrap32 (s + (l.map raw).sum) := by
  intro l
  induction l with
  | nil => intro s; simp
  | cons x xs ih =>
      intro s
      have hstep : add32 (wrap32 s) (t x) = wrap32 (s + raw x) := by
        rw [ht x]; unfold add32; exact wrap32_wrap_add s (raw x)
      rw [List.foldl_cons, hstep, ih (s + raw x), List.map_cons, List.sum_cons, add_assoc]

/-- Sum over `List.range` equals the `Finset.range` sum. -/
theorem list_range_map_sum (f : Nat → Int) (n : Nat) :
    ((List.range n).map f).sum = ∑ i ∈ Finset.range n, f i := by
  induction n with
  | zero => simp
  | succ k ih => simp [List.range_succ, Finset.sum_range_succ, ih]

/-- The i32 multiply-transpose accumulator equals the two's-complement
reduction of the exact sum of products. -/
theorem matMultTransSum_spec (a : plp_mat_mult_stride_instance_i32) (m o : Nat) :
    matMultTransSum a m o
      = wrap32 (∑ n ∈ Finset.range a.N,
          a.pSrcA (m * a.strideA + n) * a.pSrcB (o * a.strideB + n)) := by
  have h := foldl_add32_sum
    (fun n => mul32 (a.pSrcA (m * a.strideA + n)) (a.pSrcB (o * a.strideB + n)))
    (fun n => a.pSrcA (m * a.strideA + n) * a.pSrcB (o * a.strideB + n))
    (fun n => rfl) (List.range a.N) 0
  rw [wrap32_zero] at h
  unfold matMultTransSum
  rw [h, zero_add, list_range_map_sum]

/-- The paired complex accumulation splits into two independent scalar
accumulations. -/
theorem cmplxAccum_split (a : plp_mat_mult_cmplx_stride_instance_i16) (m o : Nat) :
    ∀ (l : List Nat) (i j : Int),
      l.foldl (cmplxStep a m o) (i, j)
        = (l.foldl (fun s n =>
              add32 s (sub32 (mul32 (a.pSrcA ((m * a.strideA + n) * 2))
                                    (a.pSrcB ((o * a.strideB + n) * 2)))
                             (mul32 (a.pSrcA ((m * a.strideA + n) * 2 + 1))
                                    (a.pSrcB ((o * a.strideB + n) * 2 + 1))))) i,
           l.foldl (fun s n =>
              add32 s (add32 (mul32 (a.pSrcA ((m * a.strideA + n) * 2))
                                    (a.pSrcB ((o * a.strideB + n) * 2 + 1)))
                             (mul32 (a.pSrcA ((m * a.strideA + n) * 2 + 1))
                                    (a.pSrcB ((o * a.strideB + n) * 2))))) j) := by
  intro l
  induction l with
  | nil => intro i j; rfl
  | cons x xs ih => intro i j; exact ih _ _

/-- Real part of the complex accumulator: reduction of the exact sum of
`a_re * b_re - a_im * b_im`. -/
theorem cmplxAccum_re_spec (a : plp_mat_mult_cmplx_stride_instance_i16) (m o : Nat) :
    (cmplxAccum a m o).1
      = wrap32 (∑ n ∈ Finset.range a.N,
          (a.pSrcA ((m * a.strideA + n) * 2) * a.pSrcB ((o * a.strideB + n) * 2)
            - a.pSrcA ((m * a.strideA + n) * 2 + 1) * a.pSrcB ((o * a.strideB + n) * 2 + 1))) := by
  unfold cmplxAccum
  rw [cmplxAccum_split a m o (List.range a.N) 0 0]
  have h := foldl_add32_sum
    (fun n => sub32 (mul32 (a.pSrcA ((m * a.strideA + n) * 2))
                           (a.pSrcB ((o * a.strideB + n) * 2)))
                    (mul32 (a.pSrcA ((m * a.strideA + n) * 2 + 1))
                           (a.pSrcB ((o * a.strideB + n) * 2 + 1))))
    (fun n => a.pSrcA ((m * a.strideA + n) * 2) * a.pSrcB ((o * a.strideB + n) * 2)
            - a.pSrcA ((m * a.strideA + n) * 2 + 1) * a.pSrcB ((o * a.strideB + n) * 2 + 1))
    (fun n => by
      unfold sub32 mul32
      exact wrap32_wrap_sub _ _)
    (List.range a.N) 0
  rw [wrap32_zero] at h
  simp only [h, zero_add, list_range_map_sum]

/-- Imaginary part of the complex accumulator: reduction of the exact sum
of `a_re * b_im + a_im * b_re`. -/
theorem cmplxAccum_im_spec (a : plp_mat_mult_cmplx_stride_instance_i16) (m o : Nat) :
    (cmplxAccum a m o).2
      = wrap32 (∑ n ∈ Finset.range a.N,
          (a.pSrcA ((m * a.strideA + n) * 2) * a.pSrcB ((o * a.strideB + n) * 2 + 1)
            + a.pSrcA ((m * a.strideA + n) * 2 + 1) * a.pSrcB ((o * a.strideB + n) * 2))) := by
  unfold cmplxAccum
  rw [cmplxAccum_split a m o (List.range a.N) 0 0]
  have h := foldl_add32_sum
    (fun n => add32 (mul32 (a.pSrcA ((m * a.strideA + n) * 2))
                           (a.pSrcB ((o * a.strideB + n) * 2 + 1)))
                    (mul32 (a.pSrcA ((m * a.strideA + n) * 2 + 1))
                           (a.pSrcB ((o * a.strideB + n) * 2))))
    (fun n => a.pSrcA ((m * a.strideA + n) * 2) * a.pSrcB ((o * a.strideB + n) * 2 + 1)
            + a.pSrcA ((m * a.strideA + n) * 2 + 1) * a.pSrcB ((o * a.strideB + n) * 2))
    (fun n => by
      unfold add32 mul32
      exact wrap32_wrap_add _ _)
    (List.range a.N) 0
  rw [wrap32_zero] at h
  simp only [h, zero_add, list_range_map_sum]

/-- C1: for every worker count `nPE ≥ 1` and every row count `M`, the row
sets traversed by the parallel kernels' outer loops
(`for (m = core_id; m < M; m += nPE)`) form a partition of `[0, M)` across
`core_id ∈ [0, nPE)`: no traversed row lies outside `[0, M)`, and every
row in `[0, M)` is assigned to exactly one worker — none skipped, none
duplicated. -/
theorem claim_C1_rows_partition (nPE M : Nat) (hn : 1 ≤ nPE) :
    (∀ cid : Nat, ∀ r ∈ stridedRows cid nPE M, r < M) ∧
    (∀ r < M, ∃! cid, cid < nPE ∧ r ∈ stridedRows cid nPE M) := by
  constructor
  · intro cid r hr
    exact stridedGo_lt nPE M M cid r hr
  · intro r hr
    refine ⟨r % nPE, ⟨Nat.mod_lt r (by omega), stridedRows_owner_mem nPE M hn r hr⟩, ?_⟩
    intro cid hcid
    exact stridedRows_owner_eq cid nPE M hn hcid.1 r hcid.2

/-- C1 witness: instantiation at `nPE = 2`, `M = 5`. -/
theorem claim_C1_rows_partition_witness :
    (∀ cid : Nat, ∀ r ∈ stridedRows cid 2 5, r < 5) ∧
    (∀ r < 5, ∃! cid, cid < 2 ∧ r ∈ stridedRows cid 2 5) :=
  claim_C1_rows_partition 2 5 (by decide)

/-- C3: for every valid descriptor (`nPE ≥ 1`, `O ≤ strideC`), the combined
parallel run of the strided multiply-transpose kernel stores at offset
`m * strideC + o` (for `m < M`, `o < O`) the 32-bit two's-complement
reduction of `∑ n < N, pSrcA[m * strideA + n] * pSrcB[o * strideB + n]`:
`pSrcB` is indexed by output column then inner index. -/
theorem claim_C3_mult_trans_value (a : plp_mat_mult_stride_instance_i32) (mem : Mem)
    (m o : Nat) (hn : 1 ≤ a.nPE) (hv : a.O ≤ a.strideC) (hm : m < a.M) (ho : o < a.O) :
    parRunMultI32 a mem (m * a.strideC + o)
      = wrap32 (∑ n ∈ Finset.range a.N,
          a.pSrcA (m * a.strideA + n) * a.pSrcB (o * a.strideB + n)) := by
  rw [parRunMultI32_eq_parRun, parRun_canonical _ _ _ hn (nodupFst_multI32 a hv) mem,
    ← matMultTransSum_spec]
  refine applyWrites_getValue _ _ _ (nodupFst_multI32 a hv) ?_ mem
  refine List.mem_flatMap.mpr ⟨m, List.mem_range.mpr hm, ?_⟩
  exact List.mem_map.mpr ⟨o, List.mem_range.mpr ho, rfl⟩

/-- C3 witness: the dot-product worked example `A = [1,2,3]`, `B = [4,5,6]`
as a `1 × 3` times transposed `1 × 3` multiplication gives `32`. -/
theorem claim_C3_mult_trans_value_witness :
    parRunMultI32
      ⟨fun i => ([1, 2, 3] : List Int).getD i 0, fun i => ([4, 5, 6] : List Int).getD i 0,
       1, 3, 1, 3, 3, 1, 1⟩ (fun _ => 0) (0 * 1 + 0) = 32 :=
  (claim_C3_mult_trans_value
    ⟨fun i => ([1, 2, 3] : List Int).getD i 0, fun i => ([4, 5, 6] : List Int).getD i 0,
     1, 3, 1, 3, 3, 1, 1⟩ (fun _ => 0) 0 0 (by decide) (by decide) (by decide)
    (by decide)).trans (by decide)

/-- C5: for every valid descriptor (`nPE ≥ 1`, `N ≤ strideY`), the combined
parallel run of the strided subtraction kernel stores at offset
`m * strideY + n` (for `m < M`, `n < N`) the 16-bit value
`pSrcA[m * strideA + n] - pSrcB[m * strideB + n]`, each buffer addressed at
its own stride. -/
theorem claim_C5_sub_value (a : plp_mat_sub_stride_instance_i16) (mem : Mem)
    (m n : Nat) (hn : 1 ≤ a.nPE) (hv : a.N ≤ a.strideY) (hm : m < a.M) (hN : n < a.N) :
    parRunSub a mem (m * a.strideY + n)
      = wrap16 (a.pSrcA (m * a.strideA + n) - a.pSrcB (m * a.strideB + n)) := by
  rw [parRunSub_eq_parRun, parRun_canonical _ _ _ hn (nodupFst_sub a hv) mem]
  refine applyWrites_getValue _ _ _ (nodupFst_sub a hv) ?_ mem
  refine List.mem_flatMap.mpr ⟨m, List.mem_range.mpr hm, ?_⟩
  exact List.mem_map.mpr ⟨n, List.mem_range.mpr hN, rfl⟩

/-- C5 witness: `A = [10, 20]`, `B = [3, 4]` at `M = 1`, `N = 2` gives
`[7, 16]`; position `(0, 1)` holds `16`. -/
theorem claim_C5_sub_value_witness :
    parRunSub
      ⟨fun i => ([10, 20] : List Int).getD i 0, fun i => ([3, 4] : List Int).getD i 0,
       1, 2, 2, 2, 2, 1⟩ (fun _ => 0) (0 * 2 + 1) = 16 :=
  (claim_C5_sub_value
    ⟨fun i => ([10, 20] : List Int).getD i 0, fun i => ([3, 4] : List Int).getD i 0,
     1, 2, 2, 2, 2, 1⟩ (fun _ => 0) 0 1 (by decide) (by decide) (by decide)
    (by decide)).trans (by decide)

/-- C7 counterexample: called from cluster `7` with `ARCHI_FC_CID = 32` —
a context the dispatch does not specifically recognize — `plp_dot_prod_i32s`
silently forwards to the `xpulpv2` kernel (the `else` branch); it does not
fail fast or signal a contract violation, contradicting the claim as
stated. -/
theorem claim_C7_counterexample :
    plp_dot_prod_i32s_select 7 32 (fun _ => 0) (fun _ => 0) 4
        = DotProdI32Kernel.xpulpv2 ∧
    plp_dot_prod_i32s_select 7 32 (fun _ => 0) (fun _ => 0) 4
        ≠ DotProdI32Kernel.contractViolation := by
  exact ⟨rfl, by decide⟩

/-- C7 amended: `plp_dot_prod_i32s` is total over the context space and
selects a kernel from the calling context's cluster identity only, never
from the input data; the context whose cluster id equals `ARCHI_FC_CID`
gets the `rv32im` kernel, and every other context is silently forwarded to
the `xpulpv2` kernel as a default — there is no fail-fast path. -/
theorem claim_C7_dispatch_total (cluster_id fc : Nat) (A B A' B' : Mem) (bs bs' : Nat) :
    (plp_dot_prod_i32s_select cluster_id fc A B bs = DotProdI32Kernel.rv32im ∨
     plp_dot_prod_i32s_select cluster_id fc A B bs = DotProdI32Kernel.xpulpv2) ∧
    plp_dot_prod_i32s_select cluster_id fc A B bs ≠ DotProdI32Kernel.contractViolation ∧
    (cluster_id = fc →
      plp_dot_prod_i32s_select cluster_id fc A B bs = DotProdI32Kernel.rv32im) ∧
    (cluster_id ≠ fc →
      plp_dot_prod_i32s_select cluster_id fc A B bs = DotProdI32Kernel.xpulpv2) ∧
    plp_dot_prod_i32s_select cluster_id fc A B bs
      = plp_dot_prod_i32s_select cluster_id fc A' B' bs' := by
  unfold plp_dot_prod_i32s_select
  by_cases h : cluster_id = fc <;> simp [h]

/-- C7 amended witness: instantiation on the fabric controller context
(`cluster_id = fc = 32`). -/
theorem claim_C7_dispatch_total_witness :
    (plp_dot_prod_i32s_select 32 32 (fun _ => 0) (fun _ => 0) 4 = DotProdI32Kernel.rv32im ∨
     plp_dot_prod_i32s_select 32 32 (fun _ => 0) (fun _ => 0) 4 = DotProdI32Kernel.xpulpv2) ∧
    plp_dot_prod_i32s_select 32 32 (fun _ => 0) (fun _ => 0) 4
        ≠ DotProdI32Kernel.contractViolation ∧
    ((32 : Nat) = 32 →
      plp_dot_prod_i32s_select 32 32 (fun _ => 0) (fun _ => 0) 4 = DotProdI32Kernel.rv32im) ∧
    ((32 : Nat) ≠ 32 →
      plp_dot_prod_i32s_select 32 32 (fun _ => 0) (fun _ => 0) 4 = DotProdI32Kernel.xpulpv2) ∧
    plp_dot_prod_i32s_select 32 32 (fun _ => 0) (fun _ => 0) 4
      = plp_dot_prod_i32s_select 32 32 (fun _ => 1) (fun _ => 1) 8 :=
  claim_C7_dispatch_total 32 32 (fun _ => 0) (fun _ => 0) (fun _ => 1) (fun _ => 1) 4 8

/-- C8: every accumulator (`sum` in the i32 multiply-transpose kernel,
`sum_re` and `sum_im` in the complex kernel) is a 32-bit quantity: its
value is the two's-complement reduction modulo `2 ^ 32` of the exact
mathematical sum — overflow wraps around instead of raising any exception
or changing control flow — and always lies in `[-2^31, 2^31)`. -/
theorem claim_C8_accumulator_wrap (a : plp_mat_mult_stride_instance_i32)
    (b : plp_mat_mult_cmplx_stride_instance_i16) (m o mc oc : Nat) :
    (matMultTransSum a m o
        = wrap32 (∑ n ∈ Finset.range a.N,
            a.pSrcA (m * a.strideA + n) * a.pSrcB (o * a.strideB + n)) ∧
      -2 ^ 31 ≤ matMultTransSum a m o ∧ matMultTransSum a m o < 2 ^ 31) ∧
    ((cmplxAccum b mc oc).1
        = wrap32 (∑ n ∈ Finset.range b.N,
            (b.pSrcA ((mc * b.strideA + n) * 2) * b.pSrcB ((oc * b.strideB + n) * 2)
              - b.pSrcA ((mc * b.strideA + n) * 2 + 1)
                * b.pSrcB ((oc * b.strideB + n) * 2 + 1))) ∧
      -2 ^ 31 ≤ (cmplxAccum b mc oc).1 ∧ (cmplxAccum b mc oc).1 < 2 ^ 31) ∧
    ((cmplxAccum b mc oc).2
        = wrap32 (∑ n ∈ Finset.range b.N,
            (b.pSrcA ((mc * b.strideA + n) * 2) * b.pSrcB ((oc * b.strideB + n) * 2 + 1)
              + b.pSrcA ((mc * b.strideA + n) * 2 + 1)
                * b.pSrcB ((oc * b.strideB + n) * 2))) ∧
      -2 ^ 31 ≤ (cmplxAccum b mc oc).2 ∧ (cmplxAccum b mc oc).2 < 2 ^ 31) := by
  refine ⟨⟨matMultTransSum_spec a m o, ?_, ?_⟩,
    ⟨cmplxAccum_re_spec b mc oc, ?_, ?_⟩, ⟨cmplxAccum_im_spec b mc oc, ?_, ?_⟩⟩
  · rw [matMultTransSum_spec a m o]; exact wrap32_lb _
  · rw [matMultTransSum_spec a m o]; exact wrap32_ub _
  · rw [cmplxAccum_re_spec b mc oc]; exact wrap32_lb _
  · rw [cmplxAccum_re_spec b mc oc]; exact wrap32_ub _
  · rw [cmplxAccum_im_spec b mc oc]; exact wrap32_lb _
  · rw [cmplxAccum_im_spec b mc oc]; exact wrap32_ub _

/-- C9: each parallel kernel invocation's outer loop terminates: with fuel
at least `M` the loop trace is already complete (more fuel changes
nothing), the visited rows increase by exactly `nPE` at every step, and
the loop stops before `M` — each worker runs its loop nest to completion. -/
theorem claim_C9_loop_terminates (cid nPE M fuel : Nat) (hn : 1 ≤ nPE) (hf : M ≤ fuel) :
    stridedGo nPE M fuel cid = stridedRows cid nPE M ∧
    (stridedRows cid nPE M).Chain' (fun x y => y = x + nPE) ∧
    (∀ r ∈ stridedRows cid nPE M, r < M) :=
  ⟨stridedGo_fuel_stable cid nPE M fuel hn hf, stridedGo_chain nPE M M cid,
   fun r hr => stridedGo_lt nPE M M cid r hr⟩

/-- C9 witness: instantiation at `cid = 1`, `nPE = 2`, `M = 5`, fuel `9`. -/
theorem claim_C9_loop_terminates_witness :
    stridedGo 2 5 9 1 = stridedRows 1 2 5 ∧
    (stridedRows 1 2 5).Chain' (fun x y => y = x + 2) ∧
    (∀ r ∈ stridedRows 1 2 5, r < 5) :=
  claim_C9_loop_terminates 1 2 5 9 (by decide) (by decide)

/-- C2: for every fixed valid descriptor (`nPE ≥ 1`, stride at least the
row length) the combined output buffer produced by running a parallel
multiply-transpose kernel once per `core_id ∈ [0, nPE)` is identical to
the output produced with `nPE = 1`: the final output is independent of
`nPE`, including when `nPE > M`. -/
theorem claim_C2_nPE_invariant (a : plp_mat_mult_stride_instance_i32)
    (b : plp_mat_mult_cmplx_stride_instance_i16) (memA memB : Mem)
    (hna : 1 ≤ a.nPE) (hva : a.O ≤ a.strideC)
    (hnb : 1 ≤ b.nPE) (hvb : b.O ≤ b.strideC) :
    parRunMultI32 a memA = parRunMultI32 { a with nPE := 1 } memA ∧
    parRunCmplx b memB = parRunCmplx { b with nPE := 1 } memB := by
  constructor
  · exact (parRunMultI32_eq_parRun a memA).trans
      (((parRun_canonical _ a.nPE a.M hna (nodupFst_multI32 a hva) memA).trans
        (parRun_canonical _ 1 a.M (le_refl 1) (nodupFst_multI32 a hva) memA).symm).trans
        (parRunMultI32_eq_parRun { a with nPE := 1 } memA).symm)
  · exact (parRunCmplx_eq_parRun b memB).trans
      (((parRun_canonical _ b.nPE b.M hnb (nodupFst_cmplx b hvb) memB).trans
        (parRun_canonical _ 1 b.M (le_refl 1) (nodupFst_cmplx b hvb) memB).symm).trans
        (parRunCmplx_eq_parRun { b with nPE := 1 } memB).symm)

/-- C2 witness: a `3 × 1` i32 descriptor with `nPE = 2` and a `1 × 1`
complex descriptor with `nPE = 3 > M`. -/
theorem claim_C2_nPE_invariant_witness :
    parRunMultI32
        ⟨fun i => ([5, 6, 7] : List Int).getD i 0, fun i => ([2] : List Int).getD i 0,
         3, 1, 1, 1, 1, 1, 2⟩ (fun _ => 0)
      = parRunMultI32
        { (⟨fun i => ([5, 6, 7] : List Int).getD i 0, fun i => ([2] : List Int).getD i 0,
           3, 1, 1, 1, 1, 1, 2⟩ : plp_mat_mult_stride_instance_i32) with nPE := 1 }
        (fun _ => 0) ∧
    parRunCmplx
        ⟨fun i => ([1, 2] : List Int).getD i 0, fun i => ([3, 4] : List Int).getD i 0,
         1, 1, 1, 1, 1, 1, 3⟩ (fun _ => 0)
      = parRunCmplx
        { (⟨fun i => ([1, 2] : List Int).getD i 0, fun i => ([3, 4] : List Int).getD i 0,
           1, 1, 1, 1, 1, 1, 3⟩ : plp_mat_mult_cmplx_stride_instance_i16) with nPE := 1 }
        (fun _ => 0) :=
  claim_C2_nPE_invariant
    ⟨fun i => ([5, 6, 7] : List Int).getD i 0, fun i => ([2] : List Int).getD i 0,
     3, 1, 1, 1, 1, 1, 2⟩
    ⟨fun i => ([1, 2] : List Int).getD i 0, fun i => ([3, 4] : List Int).getD i 0,
     1, 1, 1, 1, 1, 1, 3⟩
    (fun _ => 0) (fun _ => 0) (by decide) (by decide) (by decide) (by decide)

/-- C4: for every valid descriptor, the combined parallel run of the
complex strided multiply-transpose kernel stores at the interleaved pair
of offsets `(m * strideC + o) * 2` and `(m * strideC + o) * 2 + 1` the
32-bit reductions of `∑ n, (a_re * b_re - a_im * b_im)` and
`∑ n, (a_re * b_im + a_im * b_re)`, where the real part of each input is
read at primitive offset `(row * stride + n) * 2` and the imaginary part
at `(row * stride + n) * 2 + 1`. -/
theorem claim_C4_cmplx_value (a : plp_mat_mult_cmplx_stride_instance_i16) (mem : Mem)
    (m o : Nat) (hn : 1 ≤ a.nPE) (hv : a.O ≤ a.strideC) (hm : m < a.M) (ho : o < a.O) :
    parRunCmplx a mem ((m * a.strideC + o) * 2)
      = wrap32 (∑ n ∈ Finset.range a.N,
          (a.pSrcA ((m * a.strideA + n) * 2) * a.pSrcB ((o * a.strideB + n) * 2)
            - a.pSrcA ((m * a.strideA + n) * 2 + 1)
              * a.pSrcB ((o * a.strideB + n) * 2 + 1))) ∧
    parRunCmplx a mem ((m * a.strideC + o) * 2 + 1)
      = wrap32 (∑ n ∈ Finset.range a.N,
          (a.pSrcA ((m * a.strideA + n) * 2) * a.pSrcB ((o * a.strideB + n) * 2 + 1)
            + a.pSrcA ((m * a.strideA + n) * 2 + 1)
              * a.pSrcB ((o * a.strideB + n) * 2))) := by
  constructor
  · rw [parRunCmplx_eq_parRun, parRun_canonical _ _ _ hn (nodupFst_cmplx a hv) mem,
      ← cmplxAccum_re_spec]
    refine applyWrites_getValue _ _ _ (nodupFst_cmplx a hv) ?_ mem
    refine List.mem_flatMap.mpr ⟨m, List.mem_range.mpr hm, ?_⟩
    refine List.mem_flatMap.mpr ⟨o, List.mem_range.mpr ho, ?_⟩
    simp
  · rw [parRunCmplx_eq_parRun, parRun_canonical _ _ _ hn (nodupFst_cmplx a hv) mem,
      ← cmplxAccum_im_spec]
    refine applyWrites_getValue _ _ _ (nodupFst_cmplx a hv) ?_ mem
    refine List.mem_flatMap.mpr ⟨m, List.mem_range.mpr hm, ?_⟩
    refine List.mem_flatMap.mpr ⟨o, List.mem_range.mpr ho, ?_⟩
    simp

/-- C4 witness: the worked example `A = [(1,2)]`, `B = [(3,4)]` with one
inner step gives `sum_re = 1*3 - 2*4 = -5` and `sum_im = 1*4 + 2*3 = 10`. -/
theorem claim_C4_cmplx_value_witness :
    parRunCmplx
        ⟨fun i => ([1, 2] : List Int).getD i 0, fun i => ([3, 4] : List Int).getD i 0,
         1, 1, 1, 1, 1, 1, 1⟩ (fun _ => 0) ((0 * 1 + 0) * 2) = -5 ∧
    parRunCmplx
        ⟨fun i => ([1, 2] : List Int).getD i 0, fun i => ([3, 4] : List Int).getD i 0,
         1, 1, 1, 1, 1, 1, 1⟩ (fun _ => 0) ((0 * 1 + 0) * 2 + 1) = 10 :=
  ⟨((claim_C4_cmplx_value
      ⟨fun i => ([1, 2] : List Int).getD i 0, fun i => ([3, 4] : List Int).getD i 0,
       1, 1, 1, 1, 1, 1, 1⟩ (fun _ => 0) 0 0 (by decide) (by decide) (by decide)
      (by decide)).1).trans (by decide),
   ((claim_C4_cmplx_value
      ⟨fun i => ([1, 2] : List Int).getD i 0, fun i => ([3, 4] : List Int).getD i 0,
       1, 1, 1, 1, 1, 1, 1⟩ (fun _ => 0) 0 0 (by decide) (by decide) (by decide)
      (by decide)).2).trans (by decide)⟩

/-- C6: a single parallel-kernel invocation by worker `core_id` mutates
only output elements of rows in its assigned set (every other address
keeps its previous value — input buffers are fields of the read-only
descriptor and are never written by construction); a worker whose assigned
row set is empty performs no writes at all, with no error; and every
`core_id ≥ M` has an empty row set, whatever `nPE` is. -/
theorem claim_C6_frame_owned_rows (a1 : plp_mat_mult_stride_instance_i32)
    (a2 : plp_mat_mult_cmplx_stride_instance_i16) (a3 : plp_mat_sub_stride_instance_i16)
    (cid : Nat) (mem : Mem) :
    (∀ addr : Nat,
        (∀ m ∈ stridedRows cid a1.nPE a1.M, ∀ o < a1.O, addr ≠ m * a1.strideC + o) →
        plp_mat_mult_trans_stride_i32p_xpulpv2 cid a1 mem addr = mem addr) ∧
    (∀ addr : Nat,
        (∀ m ∈ stridedRows cid a2.nPE a2.M, ∀ o < a2.O,
            addr ≠ (m * a2.strideC + o) * 2 ∧ addr ≠ (m * a2.strideC + o) * 2 + 1) →
        plp_mat_mult_trans_cmplx_stride_i16p_xpulpv2 cid a2 mem addr = mem addr) ∧
    (∀ addr : Nat,
        (∀ m ∈ stridedRows cid a3.nPE a3.M, ∀ n < a3.N, addr ≠ m * a3.strideY + n) →
        plp_mat_sub_stride_i16p_xpulpv2 cid a3 mem addr = mem addr) ∧
    (stridedRows cid a1.nPE a1.M = [] →
        plp_mat_mult_trans_stride_i32p_xpulpv2 cid a1 mem = mem) ∧
    (stridedRows cid a2.nPE a2.M = [] →
        plp_mat_mult_trans_cmplx_stride_i16p_xpulpv2 cid a2 mem = mem) ∧
    (stridedRows cid a3.nPE a3.M = [] →
        plp_mat_sub_stride_i16p_xpulpv2 cid a3 mem = mem) ∧
    (∀ nPE M : Nat, M ≤ cid → stridedRows cid nPE M = []) := by
  refine ⟨?_, ?_, ?_, ?_, ?_, ?_, fun nPE M h => stridedRows_empty cid nPE M h⟩
  · intro addr hfr
    rw [kernelMultI32_eq_coreRun]
    unfold coreRun
    refine applyWrites_frame _ addr ?_ mem
    intro hmem
    rw [List.map_flatMap] at hmem
    obtain ⟨mrow, hmrow, hinner⟩ := List.mem_flatMap.mp hmem
    simp only [rowWritesMultI32, List.map_map, List.mem_map, Function.comp_apply] at hinner
    obtain ⟨o, ho, heq⟩ := hinner
    exact hfr mrow hmrow o (List.mem_range.mp ho) heq.symm
  · intro addr hfr
    rw [kernelCmplx_eq_coreRun]
    unfold coreRun
    refine applyWrites_frame _ addr ?_ mem
    intro hmem
    rw [List.map_flatMap] at hmem
    obtain ⟨mrow, hmrow, hinner⟩ := List.mem_flatMap.mp hmem
    simp only [rowWritesCmplx, List.map_flatMap, List.mem_flatMap, List.map_cons,
      List.map_nil, List.mem_cons, List.mem_singleton, List.not_mem_nil, or_false] at hinner
    obtain ⟨o, ho, hcase⟩ := hinner
    have h := hfr mrow hmrow o (List.mem_range.mp ho)
    rcases hcase with rfl | rfl
    · exact h.1 rfl
    · exact h.2 rfl
  · intro addr hfr
    rw [kernelSub_eq_coreRun]
    unfold coreRun
    refine applyWrites_frame _ addr ?_ mem
    intro hmem
    rw [List.map_flatMap] at hmem
    obtain ⟨mrow, hmrow, hinner⟩ := List.mem_flatMap.mp hmem
    simp only [rowWritesSub, List.map_map, List.mem_map, Function.comp_apply] at hinner
    obtain ⟨n, hN, heq⟩ := hinner
    exact hfr mrow hmrow n (List.mem_range.mp hN) heq.symm
  · intro h
    rw [kernelMultI32_eq_coreRun]
    unfold coreRun
    rw [h]
    rfl
  · intro h
    rw [kernelCmplx_eq_coreRun]
    unfold coreRun
    rw [h]
    rfl
  · intro h
    rw [kernelSub_eq_coreRun]
    unfold coreRun
    rw [h]
    rfl

/-- C6 witness: with a `2 × 1` descriptor and `nPE = 1`, worker `0` leaves
the untouched address `7` unchanged, and worker `3` of a `2`-row problem
owns no rows. -/
theorem claim_C6_frame_owned_rows_witness :
    plp_mat_mult_trans_stride_i32p_xpulpv2 0
        ⟨fun _ => 1, fun _ => 1, 2, 1, 1, 1, 1, 1, 1⟩ (fun _ => 0) 7 = 0 ∧
    stridedRows 3 2 2 = [] :=
  ⟨(claim_C6_frame_owned_rows
      ⟨fun _ => 1, fun _ => 1, 2, 1, 1, 1, 1, 1, 1⟩
      ⟨fun _ => 1, fun _ => 1, 1, 1, 1, 1, 1, 1, 1⟩
      ⟨fun _ => 1, fun _ => 1, 1, 1, 1, 1, 1, 1⟩ 0 (fun _ => 0)).1 7 (by decide),
   (claim_C6_frame_owned_rows
      ⟨fun _ => 1, fun _ => 1, 2, 1, 1, 1, 1, 1, 1⟩
      ⟨fun _ => 1, fun _ => 1, 1, 1, 1, 1, 1, 1, 1⟩
      ⟨fun _ => 1, fun _ => 1, 1, 1, 1, 1, 1, 1⟩ 3 (fun _ => 0)).2.2.2.2.2.2 2 2
      (by decide)⟩

/-- C10: with inner dimension `N = 0` the multiply-transpose kernels write
`0` (respectively the pair `(0, 0)`) to every output position of the
invoking worker's assigned rows, and the result does not depend on the
input buffers at all (nothing is read from them); with `M = 0` the kernels
leave the output buffer completely unchanged. -/
theorem claim_C10_zero_dims (a aM : plp_mat_mult_stride_instance_i32)
    (b bM : plp_mat_mult_cmplx_stride_instance_i16) (cid : Nat) (mem : Mem)
    (A' B' : Mem) (hNa : a.N = 0) (hMa : aM.M = 0) (hNb : b.N = 0) (hMb : bM.M = 0) :
    (∀ m ∈ stridedRows cid a.nPE a.M, ∀ o < a.O,
        plp_mat_mult_trans_stride_i32p_xpulpv2 cid a mem (m * a.strideC + o) = 0) ∧
    plp_mat_mult_trans_stride_i32p_xpulpv2 cid { a with pSrcA := A', pSrcB := B' } mem
      = plp_mat_mult_trans_stride_i32p_xpulpv2 cid a mem ∧
    plp_mat_mult_trans_stride_i32p_xpulpv2 cid aM mem = mem ∧
    (∀ m ∈ stridedRows cid b.nPE b.M, ∀ o < b.O,
        plp_mat_mult_trans_cmplx_stride_i16p_xpulpv2 cid b mem
            ((m * b.strideC + o) * 2) = 0 ∧
        plp_mat_mult_trans_cmplx_stride_i16p_xpulpv2 cid b mem
            ((m * b.strideC + o) * 2 + 1) = 0) ∧
    plp_mat_mult_trans_cmplx_stride_i16p_xpulpv2 cid { b with pSrcA := A', pSrcB := B' } mem
      = plp_mat_mult_trans_cmplx_stride_i16p_xpulpv2 cid b mem ∧
    plp_mat_mult_trans_cmplx_stride_i16p_xpulpv2 cid bM mem = mem := by
  refine ⟨?_, ?_, ?_, ?_, ?_, ?_⟩
  · intro m hm o ho
    rw [kernelMultI32_eq_coreRun]
    unfold coreRun
    refine applyWrites_getConst _ 0 ?_ _ ?_ mem
    · intro pv hpv
      obtain ⟨mr, hmr, hin⟩ := List.mem_flatMap.mp hpv
      simp only [rowWritesMultI32, List.mem_map] at hin
      obtain ⟨oo, hoo, rfl⟩ := hin
      simp [matMultTransSum, hNa]
    · rw [List.map_flatMap]
      refine List.mem_flatMap.mpr ⟨m, hm, ?_⟩
      simp only [rowWritesMultI32, List.map_map, List.mem_map, Function.comp_apply]
      exact ⟨o, List.mem_range.mpr ho, rfl⟩
  · rw [kernelMultI32_eq_coreRun, kernelMultI32_eq_coreRun]
    have hrw : rowWritesMultI32 { a with pSrcA := A', pSrcB := B' } = rowWritesMultI32 a := by
      funext mr
      simp [rowWritesMultI32, matMultTransSum, hNa]
    rw [hrw]
  · rw [kernelMultI32_eq_coreRun]
    unfold coreRun
    rw [stridedRows_empty cid aM.nPE aM.M (by omega)]
    rfl
  · intro m hm o ho
    constructor
    · rw [kernelCmplx_eq_coreRun]
      unfold coreRun
      refine applyWrites_getConst _ 0 ?_ _ ?_ mem
      · intro pv hpv
        obtain ⟨mr, hmr, hin⟩ := List.mem_flatMap.mp hpv
        simp only [rowWritesCmplx, List.mem_flatMap, List.mem_cons, List.mem_singleton,
          List.not_mem_nil, or_false] at hin
        obtain ⟨oo, hoo, hcase⟩ := hin
        rcases hcase with rfl | rfl <;> simp [cmplxAccum, hNb]
      · rw [List.map_flatMap]
        refine List.mem_flatMap.mpr ⟨m, hm, ?_⟩
        simp only [rowWritesCmplx, List.map_flatMap, List.mem_flatMap, List.map_cons,
          List.map_nil, List.mem_cons, List.mem_singleton, List.not_mem_nil, or_false]
        exact ⟨o, List.mem_range.mpr ho, Or.inl rfl⟩
    · rw [kernelCmplx_eq_coreRun]
      unfold coreRun
      refine applyWrites_getConst _ 0 ?_ _ ?_ mem
      · intro pv hpv
        obtain ⟨mr, hmr, hin⟩ := List.mem_flatMap.mp hpv
        simp only [rowWritesCmplx, List.mem_flatMap, List.mem_cons, List.mem_singleton,
          List.not_mem_nil, or_false] at hin
        obtain ⟨oo, hoo, hcase⟩ := hin
        rcases hcase with rfl | rfl <;> simp [cmplxAccum, hNb]
      · rw [List.map_flatMap]
        refine List.mem_flatMap.mpr ⟨m, hm, ?_⟩
        simp only [rowWritesCmplx, List.map_flatMap, List.mem_flatMap, List.map_cons,
          List.map_nil, List.mem_cons, List.mem_singleton, List.not_mem_nil, or_false]
        exact ⟨o, List.mem_range.mpr ho, Or.inr rfl⟩
  · rw [kernelCmplx_eq_coreRun, kernelCmplx_eq_coreRun]
    have hrw : rowWritesCmplx { b with pSrcA := A', pSrcB := B' } = rowWritesCmplx b := by
      funext mr
      simp [rowWritesCmplx, cmplxAccum, hNb]
    rw [hrw]
  · rw [kernelCmplx_eq_coreRun]
    unfold coreRun
    rw [stridedRows_empty cid bM.nPE bM.M (by omega)]
    rfl

/-- C10 witness: `N = 0` descriptors (`M = 2` i32, `M = 1` complex) and
`M = 0` descriptors, worker `0`, zeroed source stand-ins. -/
theorem claim_C10_zero_dims_witness :
    (∀ m ∈ stridedRows 0 1 2, ∀ o < 1,
        plp_mat_mult_trans_stride_i32p_xpulpv2 0
          ⟨fun _ => 9, fun _ => 9, 2, 0, 1, 1, 1, 1, 1⟩ (fun _ => 4) (m * 1 + o) = 0) ∧
    plp_mat_mult_trans_stride_i32p_xpulpv2 0
        { (⟨fun _ => 9, fun _ => 9, 2, 0, 1, 1, 1, 1, 1⟩ :
            plp_mat_mult_stride_instance_i32) with pSrcA := fun _ => 5, pSrcB := fun _ => 6 }
        (fun _ => 4)
      = plp_mat_mult_trans_stride_i32p_xpulpv2 0
          ⟨fun _ => 9, fun _ => 9, 2, 0, 1, 1, 1, 1, 1⟩ (fun _ => 4) ∧
    plp_mat_mult_trans_stride_i32p_xpulpv2 0
        ⟨fun _ => 9, fun _ => 9, 0, 1, 1, 1, 1, 1, 1⟩ (fun _ => 4) = (fun _ => 4) ∧
    (∀ m ∈ stridedRows 0 1 1, ∀ o < 1,
        plp_mat_mult_trans_cmplx_stride_i16p_xpulpv2 0
            ⟨fun _ => 9, fun _ => 9, 1, 0, 1, 1, 1, 1, 1⟩ (fun _ => 4) ((m * 1 + o) * 2) = 0 ∧
        plp_mat_mult_trans_cmplx_stride_i16p_xpulpv2 0
            ⟨fun _ => 9, fun _ => 9, 1, 0, 1, 1, 1, 1, 1⟩ (fun _ => 4)
            ((m * 1 + o) * 2 + 1) = 0) ∧
    plp_mat_mult_trans_cmplx_stride_i16p_xpulpv2 0
        { (⟨fun _ => 9, fun _ => 9, 1, 0, 1, 1, 1, 1, 1⟩ :
            plp_mat_mult_cmplx_stride_instance_i16) with pSrcA := fun _ => 5, pSrcB := fun _ => 6 }
        (fun _ => 4)
      = plp_mat_mult_trans_cmplx_stride_i16p_xpulpv2 0
          ⟨fun _ => 9, fun _ => 9, 1, 0, 1, 1, 1, 1, 1⟩ (fun _ => 4) ∧
    plp_mat_mult_trans_cmplx_stride_i16p_xpulpv2 0
        ⟨fun _ => 9, fun _ => 9, 0, 1, 1, 1, 1, 1, 1⟩ (fun _ => 4) = (fun _ => 4) :=
  claim_C10_zero_dims
    ⟨fun _ => 9, fun _ => 9, 2, 0, 1, 1, 1, 1, 1⟩
    ⟨fun _ => 9, fun _ => 9, 0, 1, 1, 1, 1, 1, 1⟩
    ⟨fun _ => 9, fun _ => 9, 1, 0, 1, 1, 1, 1, 1⟩
    ⟨fun _ => 9, fun _ => 9, 0, 1, 1, 1, 1, 1, 1⟩
    0 (fun _ => 4) (fun _ => 5) (fun _ => 6) rfl rfl rfl rfl
